import Mathlib

/-!
Verification development for the afterglow-manager publish/thumbnail core
(src-tauri/src/publish.rs, src-tauri/src/thumbnails.rs).

The Rust code is shallowly embedded: pure helpers become Lean functions,
and every interaction with the filesystem, the object store or the CDN is
made explicit by passing the outcome of each external call as a parameter
(a function argument of the embedded operation).  Paths are modelled as
slash-separated strings, matching the relative paths the program builds.
-/

namespace Afterglow

/-- Splitting of a character list at every occurrence of a separator;
the structural-recursion counterpart of String.splitOn for one-character
separators, used so that proofs can evaluate path helpers. -/
def splitOnChar (sep : Char) : List Char → List (List Char)
  | [] => [[]]
  | c :: cs =>
    let r := splitOnChar sep cs
    if c = sep then [] :: r
    else
      match r with
      | [] => [[c]]
      | g :: gs => (c :: g) :: gs

/-- Components of a string split at a separator character. -/
def splitChar (sep : Char) (s : String) : List String :=
  (splitOnChar sep s.data).map String.mk

/-- Last slash-separated component of a path, as Rust Path::file_name
returns it for the plain relative paths this program builds. -/
def fileNameOf (p : String) : String :=
  (splitChar '/' p).getLastD ""

/-- Extension of a path, as Rust Path::extension(): the part of the file
name after its last dot; none when the name has no dot or only a leading
dot. -/
def rustExtension (p : String) : Option String :=
  match splitChar '.' (fileNameOf p) with
  | [] => none
  | [_] => none
  | first :: rest => if first = "" ∧ rest.length = 1 then none else some (rest.getLastD "")

/-- ASCII lowercasing, modelling Rust str::to_lowercase on the ASCII
extension strings this program compares. -/
def asciiLower (s : String) : String :=
  String.mk (s.data.map Char.toLower)

/-- Lowercased extension defaulting to the empty string, as computed at
publish.rs lines 33-37: extension().and_then(to_str).map(to_lowercase).unwrap_or_default(). -/
def extLower (p : String) : String :=
  asciiLower ((rustExtension p).getD "")

/-- Embedding of content_type_for_extension (publish.rs lines 32-53); the
match on the lowercased extension is written as the equivalent chain of
conditionals. -/
def content_type_for_extension (p : String) : String :=
  let ext := extLower p
  if ext = "jpg" ∨ ext = "jpeg" then "image/jpeg"
  else if ext = "png" then "image/png"
  else if ext = "gif" then "image/gif"
  else if ext = "webp" then "image/webp"
  else if ext = "avif" then "image/avif"
  else if ext = "bmp" then "image/bmp"
  else if ext = "tiff" ∨ ext = "tif" then "image/tiff"
  else if ext = "ico" then "image/x-icon"
  else if ext = "json" then "application/json"
  else if ext = "html" then "text/html; charset=utf-8"
  else if ext = "css" then "text/css"
  else if ext = "js" then "application/javascript"
  else "application/octet-stream"

/-- Extensions that content_type_for_extension maps to a dedicated type
(every arm of the match at publish.rs lines 38-52 except the default). -/
def knownExts : List String :=
  ["jpg", "jpeg", "png", "gif", "webp", "avif", "bmp", "tiff", "tif", "ico", "json", "html", "css", "js"]

/-- C5 (counterexample): the claimed content-type table is wrong on the
code: .gif maps to image/gif (the claim would send every extension outside
its six-entry table to application/octet-stream), and .html maps to
"text/html; charset=utf-8", not to "text/html". -/
theorem C5_counterexample :
    content_type_for_extension "photo.gif" = "image/gif"
    ∧ content_type_for_extension "index.html" = "text/html; charset=utf-8"
    ∧ "image/gif" ≠ "application/octet-stream"
    ∧ "text/html; charset=utf-8" ≠ "text/html" := by
  refine ⟨by decide, by decide, by decide, by decide⟩

/-- C5 (amended): the content type is a fixed total function of the
lowercased extension: jpg/jpeg→image/jpeg, png→image/png, gif→image/gif,
webp→image/webp, avif→image/avif, bmp→image/bmp, tiff/tif→image/tiff,
ico→image/x-icon, json→application/json, html→"text/html; charset=utf-8",
css→text/css, js→application/javascript, and every other extension maps to
application/octet-stream. -/
theorem C5_amended :
    (content_type_for_extension "a.jpg" = "image/jpeg"
      ∧ content_type_for_extension "a.jpeg" = "image/jpeg"
      ∧ content_type_for_extension "a.png" = "image/png"
      ∧ content_type_for_extension "a.gif" = "image/gif"
      ∧ content_type_for_extension "a.webp" = "image/webp"
      ∧ content_type_for_extension "a.avif" = "image/avif"
      ∧ content_type_for_extension "a.bmp" = "image/bmp"
      ∧ content_type_for_extension "a.tiff" = "image/tiff"
      ∧ content_type_for_extension "a.tif" = "image/tiff"
      ∧ content_type_for_extension "a.ico" = "image/x-icon"
      ∧ content_type_for_extension "a.json" = "application/json"
      ∧ content_type_for_extension "a.html" = "text/html; charset=utf-8"
      ∧ content_type_for_extension "a.css" = "text/css"
      ∧ content_type_for_extension "a.js" = "application/javascript")
    ∧ ∀ p : String, extLower p ∉ knownExts →
        content_type_for_extension p = "application/octet-stream" := by
  refine ⟨by decide, ?_⟩
  intro p h
  simp only [knownExts, List.mem_cons, List.not_mem_nil, or_false, not_or] at h
  obtain ⟨h1, h2, h3, h4, h5, h6, h7, h8, h9, h10, h11, h12, h13, h14⟩ := h
  simp [content_type_for_extension, h1, h2, h3, h4, h5, h6, h7, h8, h9, h10, h11, h12, h13, h14]

/-- Containment of a character in a string, as Rust str::contains(char)
(publish.rs line 702 checks etag.contains('-')). -/
def strContains (s : String) (c : Char) : Bool :=
  s.data.contains c

/-- Test that a string starts with a given string, as Rust
str::starts_with. -/
def strStarts (s p : String) : Bool :=
  List.isPrefixOf p.data s.data

/-- One entry of the local artifact map built by publish_preview
(publish.rs lines 582-663): an s3 key mapped to a local path and the MD5
digest of the local file's bytes. -/
structure LocalEntry where
  key : String
  path : String
  md5 : String
deriving Repr, DecidableEq

/-- Embedding of SyncFile (publish.rs lines 217-224). -/
structure SyncFile where
  local_path : String
  s3_key : String
  size_bytes : Nat
  content_type : String
deriving Repr, DecidableEq

/-- Embedding of PublishPlan (publish.rs lines 226-234). -/
structure PublishPlan where
  plan_id : String
  to_upload : List SyncFile
  to_delete : List String
  unchanged : Nat
  total_files : Nat
deriving Repr, DecidableEq

/-- Lookup in the listed remote inventory, as s3_objects.get(s3_key)
on the HashMap built at publish.rs lines 666-693 (keys are unique). -/
def lookupEtag (s3Objects : List (String × String)) (key : String) : Option String :=
  (s3Objects.find? fun kv => kv.1 == key).map fun kv => kv.2

/-- Classification test applied to one local artifact at publish.rs lines
700-706: unchanged exactly when a remote etag exists, carries no '-'
(multipart marker) and equals the local MD5. -/
def classify_unchanged (localMd5 : String) (etag? : Option String) : Bool :=
  match etag? with
  | some etag => !strContains etag '-' && etag == localMd5
  | none => false

/-- Upload candidate built for a changed artifact (publish.rs lines
708-714); the file size read from the filesystem is a parameter. -/
def mkSyncFile (fileSize : String → Nat) (e : LocalEntry) : SyncFile :=
  { local_path := e.path
    s3_key := e.key
    size_bytes := fileSize e.path
    content_type := content_type_for_extension e.path }

/-- Embedding of the comparison loop of publish_preview (publish.rs lines
696-715): returns the upload list and the unchanged count. -/
def publish_compare (fileSize : String → Nat) (s3Objects : List (String × String)) :
    List LocalEntry → List SyncFile × Nat
  | [] => ([], 0)
  | e :: rest =>
    let r := publish_compare fileSize s3Objects rest
    if classify_unchanged e.md5 (lookupEtag s3Objects e.key) then (r.1, r.2 + 1)
    else (mkSyncFile fileSize e :: r.1, r.2)

/-- Managed-area test of publish_preview's delete filter (publish.rs lines
719-731): the galleries/ and afterglow/ prefixes under the remote root and
the exact keys index.html, favicon.ico, favicon.png. -/
def managed_preview (s3Root key : String) : Bool :=
  strStarts key (s3Root ++ "galleries/") || strStarts key (s3Root ++ "afterglow/")
    || key == s3Root ++ "index.html" || key == s3Root ++ "favicon.ico"
    || key == s3Root ++ "favicon.png"

/-- Embedding of the delete-candidate computation of publish_preview
(publish.rs lines 723-734): remote keys absent from the local map and
inside the managed areas. -/
def publish_to_delete (s3Root : String) (localMap : List LocalEntry)
    (s3Objects : List (String × String)) : List String :=
  (s3Objects.map Prod.fst).filter fun key =>
    !(localMap.any fun e => e.key == key) && managed_preview s3Root key

/-- Embedding of the plan assembly of publish_preview (publish.rs lines
736-745). -/
def publish_preview_plan (planId : String) (fileSize : String → Nat) (s3Root : String)
    (localMap : List LocalEntry) (s3Objects : List (String × String)) : PublishPlan :=
  let c := publish_compare fileSize s3Objects localMap
  let dels := publish_to_delete s3Root localMap s3Objects
  { plan_id := planId
    to_upload := c.1
    to_delete := dels
    unchanged := c.2
    total_files := c.1.length + dels.length + c.2 }

/-- Characterization of the comparison loop: uploads are exactly the local
entries whose classification fails, in order, and unchanged counts the
rest. -/
theorem publish_compare_eq (fileSize : String → Nat) (s3Objects : List (String × String))
    (localMap : List LocalEntry) :
    (publish_compare fileSize s3Objects localMap).1
        = (localMap.filter fun e => !classify_unchanged e.md5 (lookupEtag s3Objects e.key)).map
            (mkSyncFile fileSize)
      ∧ (publish_compare fileSize s3Objects localMap).2
        = localMap.countP fun e => classify_unchanged e.md5 (lookupEtag s3Objects e.key) := by
  induction localMap with
  | nil => simp [publish_compare]
  | cons e rest ih =>
    cases h : classify_unchanged e.md5 (lookupEtag s3Objects e.key) with
    | true => simp [publish_compare, h, List.filter_cons, List.countP_cons, ih.1, ih.2]
    | false => simp [publish_compare, h, List.filter_cons, List.countP_cons, ih.1, ih.2]

/-- Every upload candidate's key comes from the local map. -/
theorem publish_compare_key_mem (fileSize : String → Nat) (s3Objects : List (String × String))
    (l : List LocalEntry) (k : String)
    (h : k ∈ (publish_compare fileSize s3Objects l).1.map SyncFile.s3_key) :
    ∃ e ∈ l, e.key = k := by
  induction l with
  | nil => simp [publish_compare] at h
  | cons e rest ih =>
    cases hc : classify_unchanged e.md5 (lookupEtag s3Objects e.key) with
    | true =>
      simp only [publish_compare, hc, if_true] at h
      obtain ⟨x, hx, hk⟩ := ih h
      exact ⟨x, List.mem_cons_of_mem _ hx, hk⟩
    | false =>
      simp only [publish_compare, hc, if_false, Bool.false_eq_true, List.map_cons,
        List.mem_cons] at h
      cases h with
      | inl h => exact ⟨e, List.mem_cons_self _ _, h.symm⟩
      | inr h =>
        obtain ⟨x, hx, hk⟩ := ih h
        exact ⟨x, List.mem_cons_of_mem _ hx, hk⟩

/-- C2: a local artifact is classified unchanged exactly when a remote
object exists at its key, the etag has no '-' (composite marker) and
equals the local MD5 digest; every other artifact (missing remote entry,
mismatch, or composite etag even when textually equal to the digest) is
classified for upload. -/
theorem C2_unchanged_classification :
    (∀ (fileSize : String → Nat) (s3Objects : List (String × String))
        (localMap : List LocalEntry),
        (publish_compare fileSize s3Objects localMap).1
            = (localMap.filter fun e => !classify_unchanged e.md5 (lookupEtag s3Objects e.key)).map
                (mkSyncFile fileSize)
          ∧ (publish_compare fileSize s3Objects localMap).2
            = localMap.countP fun e => classify_unchanged e.md5 (lookupEtag s3Objects e.key))
    ∧ (∀ (md5 : String) (r : Option String),
        classify_unchanged md5 r = true
          ↔ ∃ etag, r = some etag ∧ strContains etag '-' = false ∧ etag = md5)
    ∧ (∀ md5 etag : String,
        strContains etag '-' = true → classify_unchanged md5 (some etag) = false) := by
  refine ⟨publish_compare_eq, ?_, ?_⟩
  · intro md5 r
    cases r with
    | none => simp [classify_unchanged]
    | some etag =>
      simp [classify_unchanged, Bool.and_eq_true, Bool.not_eq_true']
  · intro md5 etag h
    simp [classify_unchanged, h]

/-- C3: the plan's delete set is exactly the listed remote keys that are
absent from the local artifact map and fall inside a managed area, and no
key appears in both the upload and the delete set. -/
theorem C3_delete_set_exact :
    (∀ (planId : String) (fileSize : String → Nat) (s3Root : String)
        (localMap : List LocalEntry) (s3Objects : List (String × String)) (k : String),
        k ∈ (publish_preview_plan planId fileSize s3Root localMap s3Objects).to_delete
          ↔ k ∈ s3Objects.map Prod.fst ∧ (∀ e ∈ localMap, e.key ≠ k)
              ∧ managed_preview s3Root k = true)
    ∧ (∀ (planId : String) (fileSize : String → Nat) (s3Root : String)
        (localMap : List LocalEntry) (s3Objects : List (String × String)),
        ((publish_preview_plan planId fileSize s3Root localMap s3Objects).to_upload.map
            SyncFile.s3_key).Disjoint
          (publish_preview_plan planId fileSize s3Root localMap s3Objects).to_delete) := by
  constructor
  · intro planId fileSize s3Root localMap s3Objects k
    simp only [publish_preview_plan, publish_to_delete, List.mem_filter, Bool.and_eq_true,
      Bool.not_eq_true', List.any_eq_false, beq_iff_eq]
  · intro planId fileSize s3Root localMap s3Objects k hk hk'
    obtain ⟨e, he, hek⟩ := publish_compare_key_mem fileSize s3Objects localMap k hk
    simp only [publish_preview_plan, publish_to_delete, List.mem_filter, Bool.and_eq_true,
      Bool.not_eq_true', List.any_eq_false, beq_iff_eq] at hk'
    exact hk'.2.1 e he hek

/-- Events emitted to the external shell by publish_execute: progress
(publish.rs lines 816-824), error (lines 840-848) and completion
(lines 806-810, 985-989). -/
inductive PubEvent where
  | progress (current total : Nat) (file action : String)
  | error (msg file : String)
  | complete (uploaded deleted unchanged : Nat)
deriving Repr, DecidableEq

/-- Outcomes of the external calls publish_execute makes, passed as
parameters of the embedding: per-key transfer results, the settings-derived
remote root, the extracted CloudFront distribution id ("" when none is
configured) and the invalidation outcome. -/
structure ExecEnv where
  uploadOk : String → Bool
  deleteOk : String → Bool
  s3Root : String
  distId : String
  invalidationOk : Bool

/-- Observable outcome of one publish_execute call: its Result, the events
it emitted, the keys for which a put_object / delete_object call was
issued, and whether the plan was removed from the registry. -/
structure ExecOutcome where
  result : Except String Unit
  events : List PubEvent
  puts : List String
  dels : List String
  planRemoved : Bool
deriving Repr

/-- Managed-area test of the executor's delete phase (publish.rs lines
856-866): the galleries/ and afterglow/ prefixes under the remote root and
the exact key index.html — the favicon keys are not part of this check. -/
def managed_exec (s3Root key : String) : Bool :=
  strStarts key (s3Root ++ "galleries/") || strStarts key (s3Root ++ "afterglow/")
    || key == s3Root ++ "index.html"

/-- Final phase of publish_execute after both transfer loops: CloudFront
invalidation when a distribution id is configured (publish.rs lines
916-983), then the completion event and plan removal (lines 985-997). -/
def exec_finish (env : ExecEnv) (unchanged total uploaded deleted : Nat)
    (events : List PubEvent) (puts dels : List String) : ExecOutcome :=
  if env.distId ≠ "" then
    let events := events ++ [.progress total total "" "invalidate"]
    if env.invalidationOk then
      { result := .ok ()
        events := events ++ [.complete uploaded deleted unchanged]
        puts := puts, dels := dels, planRemoved := true }
    else
      { result := .error "CloudFront invalidation failed"
        events := events ++ [.error "CloudFront invalidation failed" ""]
        puts := puts, dels := dels, planRemoved := false }
  else
    { result := .ok ()
      events := events ++ [.complete uploaded deleted unchanged]
      puts := puts, dels := dels, planRemoved := true }

/-- Embedding of the delete loop of publish_execute (publish.rs lines
860-913): the managed-area filter comes first and skips silently; then the
cancellation check, the progress event and the delete_object call. -/
def exec_deletes (env : ExecEnv) (cancelled : Bool) (unchanged total : Nat) :
    List String → Nat → Nat → Nat → List PubEvent → List String → List String → ExecOutcome
  | [], _, uploaded, deleted, events, puts, dels =>
    exec_finish env unchanged total uploaded deleted events puts dels
  | key :: rest, current, uploaded, deleted, events, puts, dels =>
    if !managed_exec env.s3Root key then
      exec_deletes env cancelled unchanged total rest current uploaded deleted events puts dels
    else if cancelled then
      { result := .ok ()
        events := events ++ [.complete uploaded deleted unchanged]
        puts := puts, dels := dels, planRemoved := false }
    else
      let current := current + 1
      let events := events ++ [.progress current total key "delete"]
      let dels := dels ++ [key]
      if env.deleteOk key then
        exec_deletes env cancelled unchanged total rest current uploaded (deleted + 1) events
          puts dels
      else
        { result := .error ("Delete failed for " ++ key)
          events := events ++ [.error ("Delete failed for " ++ key) key]
          puts := puts, dels := dels, planRemoved := false }

/-- Embedding of the upload loop of publish_execute (publish.rs lines
800-851): cancellation check first, then the progress event and the
put_object call; any failure aborts the call. -/
def exec_uploads (env : ExecEnv) (cancelled : Bool) (plan : PublishPlan) (total : Nat) :
    List SyncFile → Nat → Nat → List PubEvent → List String → ExecOutcome
  | [], current, uploaded, events, puts =>
    exec_deletes env cancelled plan.unchanged total plan.to_delete current uploaded 0 events
      puts []
  | f :: rest, current, uploaded, events, puts =>
    if cancelled then
      { result := .ok ()
        events := events ++ [.complete uploaded 0 plan.unchanged]
        puts := puts, dels := [], planRemoved := false }
    else
      let current := current + 1
      let events := events ++ [.progress current total f.s3_key "upload"]
      let puts := puts ++ [f.s3_key]
      if env.uploadOk f.s3_key then
        exec_uploads env cancelled plan total rest current (uploaded + 1) events puts
      else
        { result := .error ("Upload failed for " ++ f.s3_key)
          events := events ++ [.error ("Upload failed for " ++ f.s3_key) f.s3_key]
          puts := puts, dels := [], planRemoved := false }

/-- Embedding of publish_execute (publish.rs lines 756-999) for a plan
already fetched from the registry.  The cancellation flag — re-read under
the registry lock before each transfer, and only ever set, never cleared —
is modelled as the constant value it holds during the call. -/
def publish_execute (env : ExecEnv) (cancelled : Bool) (plan : PublishPlan) : ExecOutcome :=
  exec_uploads env cancelled plan (plan.to_upload.length + plan.to_delete.length)
    plan.to_upload 0 0 [] []

/-- The delete loop with the cancellation flag set stops at the first
managed candidate with a completion event and no further calls. -/
theorem exec_deletes_cancelled (env : ExecEnv) (unchanged total : Nat) (l : List String)
    (h : l.any (managed_exec env.s3Root) = true) :
    ∀ (current uploaded deleted : Nat) (events : List PubEvent) (puts dels : List String),
      exec_deletes env true unchanged total l current uploaded deleted events puts dels
        = { result := .ok ()
            events := events ++ [.complete uploaded deleted unchanged]
            puts := puts, dels := dels, planRemoved := false } := by
  induction l with
  | nil => simp at h
  | cons key rest ih =>
    intro current uploaded deleted events puts dels
    cases hm : managed_exec env.s3Root key with
    | true => simp [exec_deletes, hm]
    | false =>
      simp only [List.any_cons, hm, Bool.false_or] at h
      simp [exec_deletes, hm, ih h]

/-- C7: with the cancellation flag set before the first transfer (and the
plan offering at least one transfer to reach a cancellation check), the
call performs no upload and no delete, emits exactly one completion event
carrying zero counts and the plan's unchanged count, and returns Ok. -/
theorem C7_cancel_before_first_transfer (env : ExecEnv) (plan : PublishPlan)
    (h : plan.to_upload ≠ [] ∨ plan.to_delete.any (managed_exec env.s3Root) = true) :
    publish_execute env true plan
      = { result := .ok ()
          events := [.complete 0 0 plan.unchanged]
          puts := [], dels := [], planRemoved := false } := by
  match hu : plan.to_upload, h with
  | f :: rest, _ =>
    simp [publish_execute, hu, exec_uploads]
  | [], h =>
    have hd : plan.to_delete.any (managed_exec env.s3Root) = true := by
      cases h with
      | inl h' => exact absurd rfl h'
      | inr h' => exact h'
    simp [publish_execute, hu, exec_uploads, exec_deletes_cancelled env plan.unchanged _ _ hd]

/-- Delete calls issued by the delete loop extend the accumulator only
with managed keys. -/
theorem exec_deletes_dels_managed (env : ExecEnv) (cancelled : Bool) (unchanged total : Nat)
    (l : List String) :
    ∀ (current uploaded deleted : Nat) (events : List PubEvent) (puts dels : List String),
      (∀ k ∈ dels, managed_exec env.s3Root k = true) →
      ∀ k ∈ (exec_deletes env cancelled unchanged total l current uploaded deleted events
          puts dels).dels,
        managed_exec env.s3Root k = true := by
  induction l with
  | nil =>
    intro current uploaded deleted events puts dels hacc k hk
    unfold exec_deletes exec_finish at hk
    split at hk
    · split at hk
      · exact hacc k hk
      · exact hacc k hk
    · exact hacc k hk
  | cons key rest ih =>
    intro current uploaded deleted events puts dels hacc k hk
    by_cases hm : managed_exec env.s3Root key = true
    · have hnew : ∀ x ∈ dels ++ [key], managed_exec env.s3Root x = true := by
        intro x hx
        rcases List.mem_append.mp hx with hx | hx
        · exact hacc x hx
        · simp only [List.mem_singleton] at hx
          subst hx
          exact hm
      cases cancelled with
      | true =>
        simp only [exec_deletes, hm, Bool.not_true, Bool.false_eq_true, if_false,
          if_true] at hk
        exact hacc k hk
      | false =>
        simp only [exec_deletes, hm, Bool.not_true, Bool.false_eq_true, if_false] at hk
        split at hk
        · exact ih _ _ _ _ _ _ hnew k hk
        · exact hnew k hk
    · simp only [Bool.not_eq_true] at hm
      simp only [exec_deletes, hm, Bool.not_false, if_true] at hk
      exact ih _ _ _ _ _ _ hacc k hk

/-- C1 (amended, part of the safety statement): every delete_object call
of a publish_execute run targets a key the executor's managed-area check
accepts. -/
theorem exec_uploads_dels_managed (env : ExecEnv) (cancelled : Bool) (plan : PublishPlan)
    (total : Nat) (l : List SyncFile) :
    ∀ (current uploaded : Nat) (events : List PubEvent) (puts : List String),
      ∀ k ∈ (exec_uploads env cancelled plan total l current uploaded events puts).dels,
        managed_exec env.s3Root k = true := by
  induction l with
  | nil =>
    intro current uploaded events puts k hk
    exact exec_deletes_dels_managed env cancelled plan.unchanged total plan.to_delete _ _ _ _ _
      _ (by intro x hx; simp at hx) k hk
  | cons f rest ih =>
    intro current uploaded events puts k hk
    unfold exec_uploads at hk
    split at hk
    · simp at hk
    · split at hk
      · exact ih _ _ _ _ k hk
      · simp at hk

/-- With the flag clear and every delete_object call succeeding, the
delete loop issues exactly one call per managed candidate, in order. -/
theorem exec_deletes_all_ok (env : ExecEnv) (unchanged total : Nat)
    (hdel : ∀ s, env.deleteOk s = true) (l : List String) :
    ∀ (current uploaded deleted : Nat) (events : List PubEvent) (puts dels : List String),
      (exec_deletes env false unchanged total l current uploaded deleted events puts dels).dels
        = dels ++ l.filter (managed_exec env.s3Root) := by
  induction l with
  | nil =>
    intro current uploaded deleted events puts dels
    unfold exec_deletes exec_finish
    split
    · split <;> simp
    · simp
  | cons key rest ih =>
    intro current uploaded deleted events puts dels
    unfold exec_deletes
    by_cases hm : managed_exec env.s3Root key = true
    · simp [hm, hdel key, ih, List.filter_cons]
    · simp only [Bool.not_eq_true] at hm
      simp [hm, ih, List.filter_cons]

/-- With the flag clear and every transfer succeeding, the executor's
delete calls are exactly the managed delete candidates of the plan. -/
theorem exec_uploads_all_ok (env : ExecEnv) (plan : PublishPlan) (total : Nat)
    (hup : ∀ s, env.uploadOk s = true) (hdel : ∀ s, env.deleteOk s = true)
    (l : List SyncFile) :
    ∀ (current uploaded : Nat) (events : List PubEvent) (puts : List String),
      (exec_uploads env false plan total l current uploaded events puts).dels
        = plan.to_delete.filter (managed_exec env.s3Root) := by
  induction l with
  | nil =>
    intro current uploaded events puts
    unfold exec_uploads
    simp [exec_deletes_all_ok env plan.unchanged total hdel plan.to_delete]
  | cons f rest ih =>
    intro current uploaded events puts
    unfold exec_uploads
    simp [hup f.s3_key, ih]

/-- C1 (amended): during the execute call's delete phase every candidate
is checked against the executor's managed set — the galleries/ and
afterglow/ prefixes and the exact key index.html, without the favicon
keys — so every delete_object call targets a key in that set; and with no
cancellation and no transfer error the keys deleted are exactly the
candidates matching that set, the rest being skipped silently. -/
theorem C1_amended_delete_safety :
    (∀ (env : ExecEnv) (cancelled : Bool) (plan : PublishPlan),
        ∀ k ∈ (publish_execute env cancelled plan).dels, managed_exec env.s3Root k = true)
    ∧ (∀ (env : ExecEnv) (plan : PublishPlan),
        (∀ s, env.uploadOk s = true) → (∀ s, env.deleteOk s = true) →
          (publish_execute env false plan).dels
            = plan.to_delete.filter (managed_exec env.s3Root)) := by
  constructor
  · intro env cancelled plan k hk
    exact exec_uploads_dels_managed env cancelled plan _ plan.to_upload 0 0 [] [] k hk
  · intro env plan hup hdel
    exact exec_uploads_all_ok env plan _ hup hdel plan.to_upload 0 0 [] []

/-- Environment of the C1 counterexample run: every transfer succeeds, no
distribution id, remote root at the bucket root. -/
def envC1 : ExecEnv :=
  { uploadOk := fun _ => true, deleteOk := fun _ => true, s3Root := ""
    distId := "", invalidationOk := true }

/-- Plan of the C1 counterexample run: one delete candidate, the exact
favicon key the claim lists as managed. -/
def planC1 : PublishPlan :=
  { plan_id := "p", to_upload := [], to_delete := ["favicon.ico"], unchanged := 0
    total_files := 1 }

/-- C1 (counterexample): favicon.ico is one of the managed exact keys of
the claim (it is accepted by the preview-side managed filter), the plan
proposes it for deletion, no error occurs and nothing is cancelled — yet
the execute call issues no delete for it and returns Ok: the executor's
check omits the favicon keys and skips the candidate silently. -/
theorem C1_counterexample :
    managed_preview "" "favicon.ico" = true
    ∧ managed_exec "" "favicon.ico" = false
    ∧ planC1.to_delete = ["favicon.ico"]
    ∧ (publish_execute envC1 false planC1).dels = []
    ∧ (publish_execute envC1 false planC1).result = .ok () := by
  refine ⟨by decide, by decide, rfl, by decide, rfl⟩

/-- Environment of the C7 witness run. -/
def envC7 : ExecEnv :=
  { uploadOk := fun _ => true, deleteOk := fun _ => true, s3Root := ""
    distId := "", invalidationOk := true }

/-- Plan of the C7 witness run: one upload candidate and five unchanged
files. -/
def planC7 : PublishPlan :=
  { plan_id := "q"
    to_upload := [{ local_path := "a.jpg", s3_key := "galleries/a.jpg", size_bytes := 1
                    content_type := "image/jpeg" }]
    to_delete := [], unchanged := 5, total_files := 6 }

/-- C7 (witness): the cancelled-before-first-transfer theorem applied to a
concrete plan with one upload candidate. -/
theorem C7_witness :
    publish_execute envC7 true planC7
      = { result := .ok ()
          events := [.complete 0 0 5]
          puts := [], dels := [], planRemoved := false } :=
  C7_cancel_before_first_transfer envC7 planC7 (Or.inl (by decide))

/-- Process-wide publish registry PublishState (publish.rs lines 469-481),
its two HashMaps modelled as association lists. -/
structure PublishState where
  plans : List (String × PublishPlan)
  cancelled : List (String × Bool)

/-- HashMap::insert on an association list: replaces the binding of an
existing key and appends a fresh binding otherwise. -/
def insertAssoc : List (String × Bool) → String → Bool → List (String × Bool)
  | [], k, v => [(k, v)]
  | kv :: rest, k, v => if kv.1 == k then (k, v) :: rest else kv :: insertAssoc rest k v

/-- HashMap::get on an association list. -/
def lookupAssoc (m : List (String × Bool)) (k : String) : Option Bool :=
  (m.find? fun kv => kv.1 == k).map fun kv => kv.2

/-- Embedding of publish_cancel (publish.rs lines 1002-1008): insert true
at the plan id in the cancelled map and return Ok; the plans map is not
touched. -/
def publish_cancel (st : PublishState) (planId : String) : PublishState × Except String Unit :=
  ({ st with cancelled := insertAssoc st.cancelled planId true }, .ok ())

/-- Lookup after insert at the same key yields the inserted value. -/
theorem lookup_insertAssoc (m : List (String × Bool)) (k : String) (v : Bool) :
    lookupAssoc (insertAssoc m k v) k = some v := by
  induction m with
  | nil => simp [insertAssoc, lookupAssoc, List.find?]
  | cons kv rest ih =>
    by_cases h : kv.1 == k
    · simp [insertAssoc, lookupAssoc, h, List.find?]
    · simp only [insertAssoc, h, Bool.false_eq_true, if_false]
      simpa [lookupAssoc, List.find?, h] using ih

/-- C10: publish_cancel succeeds for every plan identifier, sets that
identifier's cancelled flag to true (creating the entry when absent) and
leaves the stored plans untouched. -/
theorem C10_cancel_always_succeeds :
    ∀ (st : PublishState) (planId : String),
      (publish_cancel st planId).2 = .ok ()
        ∧ ((publish_cancel st planId).1).plans = st.plans
        ∧ lookupAssoc ((publish_cancel st planId).1).cancelled planId = some true := by
  intro st planId
  exact ⟨rfl, rfl, lookup_insertAssoc st.cancelled planId true⟩

/-- Joining of path or name components with a separator string. -/
def joinSep (sep : String) : List String → String
  | [] => ""
  | [s] => s
  | s :: rest => s ++ sep ++ joinSep sep rest

/-- Path join, as Rust PathBuf::join on the relative components this
program uses. -/
def pjoin (a b : String) : String :=
  a ++ "/" ++ b

/-- Embedding of ThumbnailSpec (thumbnails.rs lines 6-16). -/
structure ThumbnailSpec where
  source_path : String
  dest_path : String
  s3_key : String
  slug : String
  thumb_filename : String
deriving Repr, DecidableEq

/-- Round half away from zero on the nonnegative scale values involved,
as Rust f64::round, truncated to Nat. -/
def rround (q : Rat) : Nat :=
  (⌊q + 1 / 2⌋).toNat

/-- Modelled from the spec: the aspect-preserving downscale performed by
the external image crate's resize call (thumbnails.rs line 170, code not
in this repository) — "downscale with a high-quality resampling filter so
the longer side becomes exactly 800 pixels, preserving aspect ratio
(shorter side rounds proportionally)"; the crate's f64 arithmetic is
modelled by exact rational arithmetic. -/
def resize_to_fit_800 (w h : Nat) : Nat × Nat :=
  if h ≤ w then (800, rround ((h : Rat) * 800 / (w : Rat)))
  else (rround ((w : Rat) * 800 / (h : Rat)), 800)

/-- Dimension behavior of generate_thumbnail (thumbnails.rs lines
169-173): downscale only when either dimension exceeds 800, otherwise
keep the source dimensions (re-encode without resizing). -/
def generate_thumbnail_dims (w h : Nat) : Nat × Nat :=
  if 800 < w ∨ 800 < h then resize_to_fit_800 w h else (w, h)

/-- Rounding a rational below 800 stays below 800. -/
theorem rround_le_800 (q : Rat) (h : q ≤ 800) : rround q ≤ 800 := by
  unfold rround
  have h1 : (⌊q + 1 / 2⌋ : ℤ) ≤ ⌊(800 : Rat) + 1 / 2⌋ := Int.floor_le_floor (by linarith)
  have h2 : ⌊(800 : Rat) + 1 / 2⌋ = 800 := by
    rw [Int.floor_eq_iff]
    norm_num
  exact Int.toNat_le.mpr (le_of_le_of_eq h1 h2)

/-- The proportional shorter side stays below the 800 bound. -/
theorem ratio_le (a b : Nat) (hb : 0 < b) (hab : a ≤ b) :
    (a : Rat) * 800 / (b : Rat) ≤ 800 := by
  rw [div_le_iff₀ (by exact_mod_cast hb)]
  have h : (a : Rat) ≤ (b : Rat) := by exact_mod_cast hab
  nlinarith

/-- C6: generate_thumbnail never produces dimensions exceeding 800; when
either source dimension exceeds 800 the longer output side is exactly 800
and the shorter side is the proportionally scaled, rounded value; a source
within the bound keeps its dimensions; and a 3200x2400 source yields
exactly 800x600. -/
theorem C6_thumbnail_dims_bound :
    (∀ w h : Nat,
        (generate_thumbnail_dims w h).1 ≤ 800 ∧ (generate_thumbnail_dims w h).2 ≤ 800)
    ∧ (∀ w h : Nat, (800 < w ∨ 800 < h) →
        (h ≤ w → generate_thumbnail_dims w h = (800, rround ((h : Rat) * 800 / (w : Rat))))
          ∧ (w < h → generate_thumbnail_dims w h
              = (rround ((w : Rat) * 800 / (h : Rat)), 800)))
    ∧ (∀ w h : Nat, w ≤ 800 → h ≤ 800 → generate_thumbnail_dims w h = (w, h))
    ∧ generate_thumbnail_dims 3200 2400 = (800, 600) := by
  refine ⟨?_, ?_, ?_, ?_⟩
  · intro w h
    unfold generate_thumbnail_dims
    split
    · rename_i hcond
      unfold resize_to_fit_800
      split
      · rename_i hhw
        have hw : 0 < w := by rcases hcond with hc | hc <;> omega
        exact ⟨le_refl 800, rround_le_800 _ (ratio_le h w hw hhw)⟩
      · rename_i hhw
        have hwh : w ≤ h := le_of_lt (Nat.lt_of_not_le hhw)
        have hh : 0 < h := by rcases hcond with hc | hc <;> omega
        exact ⟨rround_le_800 _ (ratio_le w h hh hwh), le_refl 800⟩
    · rename_i hcond
      rw [not_or] at hcond
      exact ⟨Nat.le_of_not_lt hcond.1, Nat.le_of_not_lt hcond.2⟩
  · intro w h hcond
    constructor
    · intro hhw
      unfold generate_thumbnail_dims resize_to_fit_800
      rw [if_pos hcond, if_pos hhw]
    · intro hwh
      unfold generate_thumbnail_dims resize_to_fit_800
      rw [if_pos hcond, if_neg (Nat.not_le_of_lt hwh)]
  · intro w h hw hh
    unfold generate_thumbnail_dims
    rw [if_neg]
    rw [not_or]
    exact ⟨Nat.not_lt_of_le hw, Nat.not_lt_of_le hh⟩
  · have hq : ((2400 : Nat) : Rat) * 800 / ((3200 : Nat) : Rat) = 600 := by norm_num
    have hr : rround (600 : Rat) = 600 := by
      unfold rround
      have hf : ⌊(600 : Rat) + 1 / 2⌋ = 600 := by
        rw [Int.floor_eq_iff]
        norm_num
      rw [hf]
      rfl
    unfold generate_thumbnail_dims resize_to_fit_800
    rw [if_pos (Or.inl (by norm_num)), if_pos (by norm_num), hq, hr]

/-- C6 (witness): the theorem applied at the concrete 3200x2400 source of
the claim, with both implications discharged. -/
theorem C6_thumbnail_dims_witness :
    generate_thumbnail_dims 3200 2400 = (800, rround ((2400 : Rat) * 800 / (3200 : Rat))) :=
  ((C6_thumbnail_dims_bound.2.1 3200 2400 (Or.inl (by norm_num))).1 (by norm_num))

/-- Embedding of ThumbnailResults (thumbnails.rs lines 18-22). -/
structure ThumbnailResults where
  generated : Nat
  skipped : Nat
  errors : List (String × String)
deriving Repr, DecidableEq

/-- Filesystem outcomes that ensure_thumbnails_with_progress observes:
the freshness check of each spec (is_thumbnail_fresh) and whether
generate_thumbnail fails with an error message. -/
structure ThumbFs where
  fresh : ThumbnailSpec → Bool
  genError : ThumbnailSpec → Option String

/-- Embedding of the loop of ensure_thumbnails_with_progress
(thumbnails.rs lines 206-216), returning the results and the list of
on_progress invocations (1-based index, total, spec). -/
def ensure_loop (fs : ThumbFs) (total : Nat) :
    List ThumbnailSpec → Nat → ThumbnailResults × List (Nat × Nat × ThumbnailSpec)
  | [], _ => ({ generated := 0, skipped := 0, errors := [] }, [])
  | spec :: rest, i =>
    let r := ensure_loop fs total rest (i + 1)
    if fs.fresh spec then
      ({ r.1 with skipped := r.1.skipped + 1 }, (i + 1, total, spec) :: r.2)
    else
      match fs.genError spec with
      | none => ({ r.1 with generated := r.1.generated + 1 }, (i + 1, total, spec) :: r.2)
      | some e =>
        ({ r.1 with errors := (spec.source_path, e) :: r.1.errors },
          (i + 1, total, spec) :: r.2)

/-- Embedding of ensure_thumbnails_with_progress (thumbnails.rs lines
197-219). -/
def ensure_thumbnails_with_progress (fs : ThumbFs) (specs : List ThumbnailSpec) :
    ThumbnailResults × List (Nat × Nat × ThumbnailSpec) :=
  ensure_loop fs specs.length specs 0

/-- Counts and progress calls of the ensure loop, for any starting
index. -/
theorem ensure_loop_counts (fs : ThumbFs) (total : Nat) (l : List ThumbnailSpec) :
    ∀ i : Nat,
      ((ensure_loop fs total l i).1.generated + (ensure_loop fs total l i).1.skipped
          + (ensure_loop fs total l i).1.errors.length = l.length)
        ∧ (ensure_loop fs total l i).2.map (fun c => c.2.2) = l := by
  induction l with
  | nil => intro i; simp [ensure_loop]
  | cons spec rest ih =>
    intro i
    have h1 := (ih (i + 1)).1
    have h2 := (ih (i + 1)).2
    cases hf : fs.fresh spec with
    | true =>
      constructor
      · simp only [ensure_loop, hf, List.length_cons]
        simp only [if_true]
        omega
      · simp [ensure_loop, hf, h2]
    | false =>
      cases hg : fs.genError spec with
      | none =>
        constructor
        · simp only [ensure_loop, hf, Bool.false_eq_true, if_false, hg, List.length_cons]
          omega
        · simp [ensure_loop, hf, hg, h2]
      | some e =>
        constructor
        · simp only [ensure_loop, hf, Bool.false_eq_true, if_false, hg, List.length_cons,
            List.length_cons]
          omega
        · simp [ensure_loop, hf, hg, h2]

/-- C9: generated + skipped + the number of per-file failures partition
the spec list, and the progress callback is invoked exactly once per spec,
in order. -/
theorem C9_counts_partition (fs : ThumbFs) (specs : List ThumbnailSpec) :
    (ensure_thumbnails_with_progress fs specs).1.generated
        + (ensure_thumbnails_with_progress fs specs).1.skipped
        + (ensure_thumbnails_with_progress fs specs).1.errors.length = specs.length
      ∧ (ensure_thumbnails_with_progress fs specs).2.map (fun c => c.2.2) = specs := by
  exact ensure_loop_counts fs specs.length specs 0

/-- Parent directory of a relative path, as Rust Path::parent rendered to
a string: the components before the last one ("" for a bare file name),
none for the empty path. -/
def parentDir (p : String) : Option String :=
  if p = "" then none else some (joinSep "/" ((splitChar '/' p).dropLast))

/-- Stem of a path's file name, as Rust Path::file_stem: the name up to
its last dot, the whole name when the only dot is a leading one, none for
an empty name. -/
def fileStem (p : String) : Option String :=
  let name := fileNameOf p
  if name = "" then none
  else
    match splitChar '.' name with
    | [] => none
    | [s] => some s
    | first :: rest =>
      if first = "" ∧ rest.length = 1 then some name
      else some (joinSep "." ((first :: rest).dropLast))

/-- Fields of one gallery entry of galleries.json that
build_thumbnail_specs reads (thumbnails.rs lines 55-91): the optional slug
and cover strings. -/
structure GalleryJson where
  slug : Option String
  cover : Option String

/-- Filesystem facts build_thumbnail_specs consults: whether a path is an
existing regular file, and each slug's parsed photos array (the thumbnail
field of each photo), none when gallery-details.json is missing,
unreadable, unparsable or lacks a photos array (thumbnails.rs lines
94-98). -/
structure WorkFs where
  isFile : String → Bool
  photosOf : String → Option (List (Option String))

/-- Guarded push of build_thumbnail_specs (thumbnails.rs lines 75 and
114: seen_dest.insert returning true): appends the spec only when its
dest_path was not seen yet. -/
def pushSpec (spec : ThumbnailSpec) (acc : List ThumbnailSpec × List String) :
    List ThumbnailSpec × List String :=
  if acc.2.contains spec.dest_path then acc
  else (acc.1 ++ [spec], spec.dest_path :: acc.2)

/-- Cover-image branch of build_thumbnail_specs (thumbnails.rs lines
62-91). -/
def coverStep (fs : WorkFs) (root thumbCache galPre slug : String) (cover? : Option String)
    (acc : List ThumbnailSpec × List String) : List ThumbnailSpec × List String :=
  match cover? with
  | none => acc
  | some cover =>
    if cover = "" then acc
    else if fs.isFile (pjoin root cover) then
      let cover_dir := (parentDir cover).getD slug
      match fileStem cover with
      | none => acc
      | some stem =>
        let thumb_filename := stem ++ ".webp"
        pushSpec
          { source_path := pjoin root cover
            dest_path := pjoin (pjoin thumbCache cover_dir) thumb_filename
            s3_key := galPre ++ cover_dir ++ "/.thumbs/" ++ thumb_filename
            slug := cover_dir
            thumb_filename := thumb_filename } acc
    else acc

/-- Photo-thumbnail branch of build_thumbnail_specs for one photo
(thumbnails.rs lines 99-131). -/
def photoStep (fs : WorkFs) (root thumbCache galPre slug : String) (thumb? : Option String)
    (acc : List ThumbnailSpec × List String) : List ThumbnailSpec × List String :=
  match thumb? with
  | none => acc
  | some t =>
    if t = "" then acc
    else if fs.isFile (pjoin (pjoin root slug) t) then
      match fileStem t with
      | none => acc
      | some stem =>
        let fname := stem ++ ".webp"
        pushSpec
          { source_path := pjoin (pjoin root slug) t
            dest_path := pjoin (pjoin thumbCache slug) fname
            s3_key := galPre ++ slug ++ "/.thumbs/" ++ fname
            slug := slug
            thumb_filename := fname } acc
    else acc

/-- Per-gallery body of build_thumbnail_specs (thumbnails.rs lines
55-136): galleries without a slug are skipped; the cover branch runs
first, then every photo of the gallery's details file. -/
def galleryStep (fs : WorkFs) (root thumbCache galPre : String)
    (acc : List ThumbnailSpec × List String) (g : GalleryJson) :
    List ThumbnailSpec × List String :=
  match g.slug with
  | none => acc
  | some slug =>
    let acc1 := coverStep fs root thumbCache galPre slug g.cover acc
    match fs.photosOf slug with
    | none => acc1
    | some photos =>
      photos.foldl (fun a t => photoStep fs root thumbCache galPre slug t a) acc1

/-- Embedding of build_thumbnail_specs (thumbnails.rs lines 44-139). -/
def build_thumbnail_specs (fs : WorkFs) (root : String) (galleries : List GalleryJson)
    (s3Root : String) : List ThumbnailSpec :=
  (galleries.foldl
      (galleryStep fs root (pjoin (pjoin root ".data") "thumbnails") (s3Root ++ "galleries/"))
      ([], [])).1

/-- Invariant carried by the spec accumulator: dest paths are pairwise
distinct and all recorded in the seen set. -/
def specInv (acc : List ThumbnailSpec × List String) : Prop :=
  (acc.1.map ThumbnailSpec.dest_path).Nodup
    ∧ ∀ d ∈ acc.1.map ThumbnailSpec.dest_path, d ∈ acc.2

/-- The guarded push preserves the accumulator invariant. -/
theorem pushSpec_inv (spec : ThumbnailSpec) (acc : List ThumbnailSpec × List String)
    (h : specInv acc) : specInv (pushSpec spec acc) := by
  unfold pushSpec
  split
  · exact h
  · rename_i hc
    have hnot : spec.dest_path ∉ acc.2 := by
      intro hmem
      exact hc (by simpa using hmem)
    constructor
    · have h2 : spec.dest_path ∉ acc.1.map ThumbnailSpec.dest_path := fun hd => hnot (h.2 _ hd)
      simp only [List.map_append, List.map_cons, List.map_nil]
      exact List.Nodup.append h.1 (List.nodup_singleton _)
        (by simpa [List.disjoint_singleton] using h2)
    · intro d hd
      simp only [List.map_append, List.map_cons, List.map_nil, List.mem_append,
        List.mem_singleton] at hd
      cases hd with
      | inl hd => exact List.mem_cons_of_mem _ (h.2 d hd)
      | inr hd =>
        subst hd
        exact List.mem_cons_self _ _

/-- The cover branch preserves the accumulator invariant. -/
theorem coverStep_inv (fs : WorkFs) (root thumbCache galPre slug : String)
    (cover? : Option String) (acc : List ThumbnailSpec × List String)
    (h : specInv acc) : specInv (coverStep fs root thumbCache galPre slug cover? acc) := by
  cases cover? with
  | none => exact h
  | some cover =>
    simp only [coverStep]
    split
    · exact h
    · split
      · split
        · exact h
        · exact pushSpec_inv _ _ h
      · exact h

/-- The photo branch preserves the accumulator invariant. -/
theorem photoStep_inv (fs : WorkFs) (root thumbCache galPre slug : String)
    (thumb? : Option String) (acc : List ThumbnailSpec × List String)
    (h : specInv acc) : specInv (photoStep fs root thumbCache galPre slug thumb? acc) := by
  cases thumb? with
  | none => exact h
  | some t =>
    simp only [photoStep]
    split
    · exact h
    · split
      · split
        · exact h
        · exact pushSpec_inv _ _ h
      · exact h

/-- Preservation of a predicate along a left fold. -/
theorem foldl_pres {α β : Type} {P : α → Prop} (f : α → β → α)
    (hstep : ∀ a b, P a → P (f a b)) :
    ∀ (l : List β) (a : α), P a → P (l.foldl f a) := by
  intro l
  induction l with
  | nil => intro a h; exact h
  | cons b rest ih => intro a h; exact ih (f a b) (hstep a b h)

/-- The per-gallery body preserves the accumulator invariant. -/
theorem galleryStep_inv (fs : WorkFs) (root thumbCache galPre : String)
    (acc : List ThumbnailSpec × List String) (g : GalleryJson)
    (h : specInv acc) : specInv (galleryStep fs root thumbCache galPre acc g) := by
  cases hslug : g.slug with
  | none => simp only [galleryStep, hslug]; exact h
  | some slug =>
    simp only [galleryStep, hslug]
    have h1 := coverStep_inv fs root thumbCache galPre slug g.cover acc h
    cases hp : fs.photosOf slug with
    | none => simpa [hp] using h1
    | some photos =>
      simp only [hp]
      exact foldl_pres _ (fun a t ha => photoStep_inv fs root thumbCache galPre slug t a ha)
        photos _ h1

/-- Concrete filesystem of the C8 dedup instance: every path exists and
gallery beach has one photo whose thumbnail is its cover image. -/
def fsBeach : WorkFs :=
  { isFile := fun _ => true
    photosOf := fun s => if s = "beach" then some [some "01.jpg"] else none }

/-- C8: dest_path values are pairwise distinct across the specs built for
any workspace and gallery index; and in the concrete gallery whose cover
names the same file as its one photo thumbnail, exactly one spec is
built. -/
theorem C8_dest_paths_unique :
    (∀ (fs : WorkFs) (root : String) (galleries : List GalleryJson) (s3Root : String),
        ((build_thumbnail_specs fs root galleries s3Root).map ThumbnailSpec.dest_path).Nodup)
    ∧ (build_thumbnail_specs fsBeach "w"
        [{ slug := some "beach", cover := some "beach/01.jpg" }] "").length = 1 := by
  constructor
  · intro fs root galleries s3Root
    have h := foldl_pres
      (galleryStep fs root (pjoin (pjoin root ".data") "thumbnails") (s3Root ++ "galleries/"))
      (fun a g ha => galleryStep_inv fs root _ _ a g ha) galleries ([], [])
      ⟨List.nodup_nil, by intro d hd; simp at hd⟩
    exact h.1
  · decide

/-- One entry of the thumbnail cache root directory: a plain file, or a
per-gallery subdirectory whose entries are (name, is-regular-file)
pairs — cleanup never descends further (thumbnails.rs lines 237-253). -/
inductive CacheEntry where
  | file (name : String)
  | dir (name : String) (entries : List (String × Bool))
deriving Repr, DecidableEq

/-- Extension test of cleanup pass 1 (thumbnails.rs lines 243-244):
extension equal to webp ignoring ASCII case. -/
def isWebpName (name : String) : Bool :=
  match rustExtension name with
  | some e => asciiLower e == "webp"
  | none => false

/-- Pass 1 of cleanup_stale_thumbnails restricted to one subdirectory
(thumbnails.rs lines 241-252): remove each regular file whose name has a
webp extension and whose full path is not expected; returns the remaining
entries and the number of deletions. -/
def cleanupDirPass (expected : List String) (dirPath : String) :
    List (String × Bool) → List (String × Bool) × Nat
  | [] => ([], 0)
  | (name, isF) :: rest =>
    let r := cleanupDirPass expected dirPath rest
    if isF && isWebpName name && !expected.contains (pjoin dirPath name) then (r.1, r.2 + 1)
    else ((name, isF) :: r.1, r.2)

/-- Pass 1 of cleanup_stale_thumbnails over the cache root's entries
(thumbnails.rs lines 237-253): non-directory entries are skipped. -/
def cleanupPass1 (expected : List String) (cacheRoot : String) :
    List CacheEntry → List CacheEntry × Nat
  | [] => ([], 0)
  | CacheEntry.file name :: rest =>
    let r := cleanupPass1 expected cacheRoot rest
    (CacheEntry.file name :: r.1, r.2)
  | CacheEntry.dir name es :: rest =>
    let d := cleanupDirPass expected (pjoin cacheRoot name) es
    let r := cleanupPass1 expected cacheRoot rest
    (CacheEntry.dir name d.1 :: r.1, d.2 + r.2)

/-- Pass 2 of cleanup_stale_thumbnails (thumbnails.rs lines 256-268):
remove every now-empty subdirectory. -/
def cleanupPass2 (entries : List CacheEntry) : List CacheEntry :=
  entries.filter fun e =>
    match e with
    | CacheEntry.file _ => true
    | CacheEntry.dir _ es => !es.isEmpty

/-- Embedding of cleanup_stale_thumbnails (thumbnails.rs lines 224-274):
no-op when the cache root does not exist, otherwise pass 1 then pass 2,
returning the surviving entries and the delete count. -/
def cleanup_stale_thumbnails (cacheExists : Bool) (cacheRoot : String)
    (entries : List CacheEntry) (specs : List ThumbnailSpec) : List CacheEntry × Nat :=
  if !cacheExists then (entries, 0)
  else
    let p1 := cleanupPass1 (specs.map ThumbnailSpec.dest_path) cacheRoot entries
    (cleanupPass2 p1.1, p1.2)

/-- A webp-named regular file surviving pass 1 inside a subdirectory must
have been expected. -/
theorem cleanupDirPass_kept (expected : List String) (dirPath : String)
    (es : List (String × Bool)) (n : String)
    (hmem : (n, true) ∈ (cleanupDirPass expected dirPath es).1)
    (hw : isWebpName n = true) :
    pjoin dirPath n ∈ expected := by
  induction es with
  | nil => simp [cleanupDirPass] at hmem
  | cons e rest ih =>
    obtain ⟨name, isF⟩ := e
    cases hcond : (isF && isWebpName name && !expected.contains (pjoin dirPath name)) with
    | true =>
      simp only [cleanupDirPass, hcond, if_true] at hmem
      exact ih hmem
    | false =>
      simp only [cleanupDirPass, hcond, Bool.false_eq_true, if_false, List.mem_cons] at hmem
      cases hmem with
      | inl heq =>
        injection heq with h1 h2
        subst h1
        rw [← h2, hw] at hcond
        simp only [Bool.true_and, Bool.not_eq_false'] at hcond
        simpa using hcond
      | inr hmem' => exact ih hmem'

/-- An expected regular file inside a subdirectory survives pass 1. -/
theorem cleanupDirPass_keeps (expected : List String) (dirPath : String)
    (es : List (String × Bool)) (n : String)
    (hmem : (n, true) ∈ es)
    (hexp : pjoin dirPath n ∈ expected) :
    (n, true) ∈ (cleanupDirPass expected dirPath es).1 := by
  induction es with
  | nil => simp at hmem
  | cons e rest ih =>
    obtain ⟨name, isF⟩ := e
    rw [List.mem_cons] at hmem
    cases hmem with
    | inl heq =>
      injection heq with h1 h2
      subst h1
      rw [← h2]
      have hc : expected.contains (pjoin dirPath n) = true := by simpa using hexp
      simp [cleanupDirPass, hc, hexp]
    | inr hmem' =>
      cases hcond : (isF && isWebpName name && !expected.contains (pjoin dirPath name)) with
      | true =>
        simp only [cleanupDirPass, hcond, if_true]
        exact ih hmem'
      | false =>
        simp only [cleanupDirPass, hcond, Bool.false_eq_true, if_false]
        exact List.mem_cons_of_mem _ (ih hmem')

/-- Every subdirectory of the pass-1 result comes from an input
subdirectory of the same name, its entries filtered by the per-directory
pass. -/
theorem cleanupPass1_mem_dir (expected : List String) (cacheRoot : String)
    (entries : List CacheEntry) (d : String) (files : List (String × Bool))
    (h : CacheEntry.dir d files ∈ (cleanupPass1 expected cacheRoot entries).1) :
    ∃ es, CacheEntry.dir d es ∈ entries
      ∧ files = (cleanupDirPass expected (pjoin cacheRoot d) es).1 := by
  induction entries with
  | nil => simp [cleanupPass1] at h
  | cons e rest ih =>
    cases e with
    | file name =>
      simp only [cleanupPass1, List.mem_cons] at h
      cases h with
      | inl heq => exact CacheEntry.noConfusion heq
      | inr h' =>
        obtain ⟨es, hmem, hfiles⟩ := ih h'
        exact ⟨es, List.mem_cons_of_mem _ hmem, hfiles⟩
    | dir name es0 =>
      simp only [cleanupPass1, List.mem_cons] at h
      cases h with
      | inl heq =>
        injection heq with h1 h2
        subst h1
        exact ⟨es0, List.mem_cons_self _ _, h2⟩
      | inr h' =>
        obtain ⟨es, hmem, hfiles⟩ := ih h'
        exact ⟨es, List.mem_cons_of_mem _ hmem, hfiles⟩

/-- Every input subdirectory reappears in the pass-1 result with its
entries filtered by the per-directory pass. -/
theorem cleanupPass1_mem_dir_fwd (expected : List String) (cacheRoot : String)
    (entries : List CacheEntry) (d : String) (es : List (String × Bool))
    (h : CacheEntry.dir d es ∈ entries) :
    CacheEntry.dir d (cleanupDirPass expected (pjoin cacheRoot d) es).1
      ∈ (cleanupPass1 expected cacheRoot entries).1 := by
  induction entries with
  | nil => simp at h
  | cons e rest ih =>
    rw [List.mem_cons] at h
    cases h with
    | inl heq =>
      subst heq
      simp [cleanupPass1]
    | inr h' =>
      cases e with
      | file name =>
        simp only [cleanupPass1, List.mem_cons]
        exact Or.inr (ih h')
      | dir name es0 =>
        simp only [cleanupPass1, List.mem_cons]
        exact Or.inr (ih h')

/-- C4 (counterexample): a stale .webp file lying directly in the cache
root (not inside a per-gallery subdirectory) is not among any spec's
destination, yet cleanup leaves it in place and reports zero deletions;
the claim requires every such file to be deleted. -/
theorem C4_counterexample :
    isWebpName "stale.webp" = true
    ∧ cleanup_stale_thumbnails true "cache" [CacheEntry.file "stale.webp"] []
        = ([CacheEntry.file "stale.webp"], 0) := by
  refine ⟨by decide, by decide⟩

/-- C4 (amended): cleanup is a no-op when the cache root does not exist;
every .webp regular file lying directly inside an immediate subdirectory
of the cache root whose path is not a spec destination is deleted (a
surviving one is a destination); every destination file present in a
subdirectory survives; and no empty subdirectory remains. -/
theorem C4_amended_cleanup :
    (∀ (cacheRoot : String) (entries : List CacheEntry) (specs : List ThumbnailSpec),
        cleanup_stale_thumbnails false cacheRoot entries specs = (entries, 0))
    ∧ (∀ (cacheRoot : String) (entries : List CacheEntry) (specs : List ThumbnailSpec)
        (d : String) (files : List (String × Bool)) (n : String),
        CacheEntry.dir d files ∈ (cleanup_stale_thumbnails true cacheRoot entries specs).1 →
          (n, true) ∈ files → isWebpName n = true →
            pjoin (pjoin cacheRoot d) n ∈ specs.map ThumbnailSpec.dest_path)
    ∧ (∀ (cacheRoot : String) (entries : List CacheEntry) (specs : List ThumbnailSpec)
        (d : String) (es : List (String × Bool)) (n : String),
        CacheEntry.dir d es ∈ entries → (n, true) ∈ es →
          pjoin (pjoin cacheRoot d) n ∈ specs.map ThumbnailSpec.dest_path →
            ∃ files,
              CacheEntry.dir d files ∈ (cleanup_stale_thumbnails true cacheRoot entries specs).1
                ∧ (n, true) ∈ files)
    ∧ (∀ (cacheRoot : String) (entries : List CacheEntry) (specs : List ThumbnailSpec)
        (d : String),
        CacheEntry.dir d [] ∉ (cleanup_stale_thumbnails true cacheRoot entries specs).1) := by
  refine ⟨?_, ?_, ?_, ?_⟩
  · intro cacheRoot entries specs
    simp [cleanup_stale_thumbnails]
  · intro cacheRoot entries specs d files n hdir hn hw
    simp only [cleanup_stale_thumbnails, Bool.not_true, Bool.false_eq_true, if_false] at hdir
    rw [cleanupPass2, List.mem_filter] at hdir
    obtain ⟨es, _, hfiles⟩ := cleanupPass1_mem_dir _ _ _ _ _ hdir.1
    subst hfiles
    exact cleanupDirPass_kept _ _ es n hn hw
  · intro cacheRoot entries specs d es n hdir hn hexp
    have hkept := cleanupDirPass_keeps (specs.map ThumbnailSpec.dest_path)
      (pjoin cacheRoot d) es n hn hexp
    have hfwd := cleanupPass1_mem_dir_fwd (specs.map ThumbnailSpec.dest_path) cacheRoot
      entries d es hdir
    refine ⟨(cleanupDirPass (specs.map ThumbnailSpec.dest_path) (pjoin cacheRoot d) es).1,
      ?_, hkept⟩
    simp only [cleanup_stale_thumbnails, Bool.not_true, Bool.false_eq_true, if_false]
    rw [cleanupPass2, List.mem_filter]
    have hne := List.ne_nil_of_mem hkept
    refine ⟨hfwd, ?_⟩
    show (!(cleanupDirPass (specs.map ThumbnailSpec.dest_path)
        (pjoin cacheRoot d) es).1.isEmpty) = true
    cases hl : (cleanupDirPass (specs.map ThumbnailSpec.dest_path) (pjoin cacheRoot d) es).1 with
    | nil => exact absurd hl hne
    | cons a l => rfl
  · intro cacheRoot entries specs d hmem
    simp only [cleanup_stale_thumbnails, Bool.not_true, Bool.false_eq_true, if_false] at hmem
    rw [cleanupPass2, List.mem_filter] at hmem
    simp at hmem

end Afterglow
